import Mathlib

/-!
Verification development for the find_top_agents pipeline
(src/find_top_agents.py), a shallow embedding in Lean 4.

External collaborators (the Google search provider, the HTTP session, and
the BeautifulSoup HTML parser) are modelled as parameters or structured
inputs, exactly at the interface boundary the code uses:

* the search provider outcome is an `Except` value consumed by
  `get_search_results` (line 182-188 of the source);
* the HTTP fetch + parse of one URL is a function `String → Option HtmlDoc`,
  where `none` covers network failure / non-success status, and `HtmlDoc`
  records the three attributes the code queries from the soup
  (the content of the first meta tag with property og:title, the content
  of the first meta tag with name title, and the title element string);
* Python dicts are association lists with unique keys in insertion order;
  `set().union(*query_results)` iterates in an unspecified order, modelled
  here by a deterministic deduplicated key list (all claims proved below
  are independent of that order).

Machine integers do not overflow here (ranks and scores are small
non-negative ints in Python), so `Nat` is the faithful carrier.
-/

/-- One classified page for one query (dataclass AgentEntry). -/
structure AgentEntry where
  name : String
  url : String
  rank : Nat
deriving DecidableEq, Repr

/-- Final aggregated output record (dataclass AggregatedEntry). -/
structure AggregatedEntry where
  name : String
  url : String
  total_score : Nat
  best_rank : Nat
  worst_rank : Nat
  appearance_count : Nat
deriving DecidableEq, Repr

/-! ### String containment (Python's `needle in haystack`) -/

/-- Does the haystack start with the needle (on character lists)? -/
def charsStartWith : List Char → List Char → Bool
  | [], _ => true
  | _ :: _, [] => false
  | a :: as, b :: bs => a = b && charsStartWith as bs

/-- Does the haystack contain the needle as a contiguous run? -/
def charsContain (needle : List Char) : List Char → Bool
  | [] => charsStartWith needle []
  | c :: rest => charsStartWith needle (c :: rest) || charsContain needle rest

/-- Python's substring test `needle in hay` on strings. -/
def strContains (hay needle : String) : Bool :=
  charsContain needle.data hay.data

/-- Python's str.lower() (character-wise case folding). -/
def strLower (s : String) : String :=
  ⟨s.data.map Char.toLower⟩

/-- Python's str.strip(): drop leading and trailing whitespace. -/
def strStrip (s : String) : String :=
  ⟨((s.data.dropWhile Char.isWhitespace).reverse.dropWhile Char.isWhitespace).reverse⟩

/-! ### Configuration constants (module-level constants of the source) -/

/-- BANNED_KEYWORDS: the configured deny-list of URL substrings.
The Python value is a set; only membership is ever used (`any(... in u ...)`),
so a duplicate-free list is a faithful carrier. -/
def BANNED_KEYWORDS : List String :=
  ["zillow", "trulia", "redfin", "realtor.com", "usnews", "city-data",
   "yelp", "fastexpert", "facebook", "instagram", "linkedin", "twitter",
   "x.com", "reddit", "fivestarprofessional", "realtrends", "houzeo",
   "effectiveagents", "nextdoor", "expertise", "homelight", "homeguide",
   "nar.realtor", "youtube", "thumbtack", "topagentmagazine", "yellowpages",
   "triple", "angi", "listwithclever", "tiktok", "movoto", ".org",
   "experience.com", "bankrate", "expertise.com", "glassdoor",
   "biggerpockets", "agentproto", "landsearch", "coldwellbanker", "remax",
   "sothebys", "bhhs", "kellerwilliams", "kw.com", "century21", "c21",
   "bhgre", "era.com", "elliman", "compass", "exprealty", "corcoran",
   "weichert", "howardhanna", "longandfoster", "realtyexecutives",
   "realtyonegroup", "homesmart", "exitrealty", "ratemyagent", "sulekha",
   "bizjournals", "/news/", "/money/", "/business/", "seolium",
   "agentpronto", "upnest", "housecashin"]

/-- AGENT_INDICATORS: title substrings that mark an agent/team page. -/
def AGENT_INDICATORS : List String :=
  ["realtor", "real estate agent", "team", "realty", "broker"]

/-- GOOGLE_MAPS: the map-service URL marker. -/
def GOOGLE_MAPS : String := "google.com/maps"

/-! ### Domain filter and page classifier -/

/-- is_banned_url: True iff the lower-cased URL contains the maps marker
or any banned keyword. -/
def is_banned_url (url : String) : Bool :=
  let u := strLower url
  if strContains u GOOGLE_MAPS then true
  else BANNED_KEYWORDS.any (fun keyword => strContains u keyword)

/-- looks_like_agent: True iff the lower-cased title contains an indicator. -/
def looks_like_agent (title : String) : Bool :=
  let lower := strLower title
  AGENT_INDICATORS.any (fun indicator => strContains lower indicator)

/-- The three soup attributes extract_meta_title reads from a parsed page:
the content attribute of the first meta tag with property og:title
(`none` when the tag or its content attribute is absent), likewise for the
first meta tag with name title, and the string of the title element
(`none` when the element is absent or has no string). -/
structure HtmlDoc where
  ogTitle : Option String
  metaTitle : Option String
  titleText : Option String
deriving DecidableEq, Repr

/-- Python truthiness of an optional string attribute value:
`og and og.get("content")` passes iff the value is present and non-empty. -/
def truthyStr : Option String → Option String
  | some s => if s = "" then none else some s
  | none => none

/-- extract_meta_title: og:title content, else meta name=title content,
else the title element string; the chosen raw value is stripped.
A candidate is skipped only when absent or raw-empty (Python truthiness). -/
def extract_meta_title (doc : HtmlDoc) : Option String :=
  match truthyStr doc.ogTitle with
  | some c => some (strStrip c)
  | none =>
    match truthyStr doc.metaTitle with
    | some c => some (strStrip c)
    | none =>
      match truthyStr doc.titleText with
      | some t => some (strStrip t)
      | none => none

/-! ### Query fetcher -/

/-- get_search_results: the provider outcome, with any failure degraded to
the empty URL list (the try/except of lines 182-188). -/
def get_search_results : Except String (List String) → List String
  | Except.ok urls => urls
  | Except.error _ => []

/-- First-match lookup in an association list (Python dict read). -/
def lookupKey : List (String × AgentEntry) → String → Option AgentEntry
  | [], _ => none
  | p :: rest, k => if p.1 = k then some p.2 else lookupKey rest k

/-- The dict upsert of lines 212-217: if the case-folded title is already a
key, lower its stored rank to the minimum with the new rank (name and url
untouched); otherwise insert a fresh AgentEntry at the end. -/
def upsertEntry (entries : List (String × AgentEntry)) (title url : String)
    (rank : Nat) : List (String × AgentEntry) :=
  let key := strLower title
  match lookupKey entries key with
  | some _ =>
      entries.map (fun p =>
        if p.1 = key then (p.1, ⟨p.2.name, p.2.url, min p.2.rank rank⟩) else p)
  | none => entries ++ [(key, ⟨title, url, rank⟩)]

/-- The per-URL body of the fetch loop (lines 199-209): returns the usable
title, or `none` when the URL is banned, the fetch fails, no title is
extracted, the title is empty, or it fails the agent-likeness test. -/
def classify (fetch : String → Option HtmlDoc) (url : String) : Option String :=
  if is_banned_url url then none
  else
    match fetch url with
    | none => none
    | some doc =>
      match extract_meta_title doc with
      | none => none
      | some title =>
        if title = "" then none
        else if looks_like_agent title then some title else none

/-- The enumerate loop of fetch_agents_for_query: rank counts every raw
search result, including the skipped ones. -/
def fetchLoop (fetch : String → Option HtmlDoc) :
    List String → Nat → List (String × AgentEntry) → List (String × AgentEntry)
  | [], _, entries => entries
  | url :: rest, rank, entries =>
    match classify fetch url with
    | none => fetchLoop fetch rest (rank + 1) entries
    | some title => fetchLoop fetch rest (rank + 1) (upsertEntry entries title url rank)

/-- fetch_agents_for_query: dict of case-folded title to AgentEntry for one
query, built from the raw result URLs with 1-based ranks. -/
def fetch_agents_for_query (fetch : String → Option HtmlDoc)
    (urls : List String) : List (String × AgentEntry) :=
  fetchLoop fetch urls 1 []

/-! ### Aggregator -/

/-- A per-query value of the rank vector: the stored rank when the key is
present, the penalty otherwise (lines 232-238). -/
def perQueryRank (penalty : Nat) (key : String)
    (qr : List (String × AgentEntry)) : Nat :=
  match lookupKey qr key with
  | some a => a.rank
  | none => penalty

/-- The inner loop of aggregate_entries for one key: the rank vector in
query order and the appearance count. -/
def collectRanks (penalty : Nat) (key : String) :
    List (List (String × AgentEntry)) → List Nat × Nat
  | [] => ([], 0)
  | qr :: rest =>
    let acc := collectRanks penalty key rest
    match lookupKey qr key with
    | some a => (a.rank :: acc.1, acc.2 + 1)
    | none => (penalty :: acc.1, acc.2)

/-- Python min over a list of naturals (left scan; junk 0 on the empty
list, which Python would reject and the callers never reach). -/
def listMin : List Nat → Nat
  | [] => 0
  | a :: l => l.foldl min a

/-- Python max over a list of naturals (junk 0 on the empty list). -/
def listMax : List Nat → Nat
  | [] => 0
  | a :: l => l.foldl max a

/-- The generator `(qr[key] for qr in query_results if key in qr)`. -/
def candidateEntries (qrs : List (List (String × AgentEntry)))
    (key : String) : List AgentEntry :=
  qrs.filterMap (fun qr => lookupKey qr key)

/-- Python `min(entries, key=lambda e: e.rank)`: first entry of minimal
rank (a later entry replaces the champion only when strictly smaller). -/
def pickMinRank : List AgentEntry → Option AgentEntry
  | [] => none
  | a :: rest => some (rest.foldl (fun b c => if c.rank < b.rank then c else b) a)

/-- The union of all per-query key sets (`set().union(*query_results)`).
The Python set iterates in an unspecified order; this deterministic
representative has the same membership and no duplicates. -/
def allKeys (qrs : List (List (String × AgentEntry))) : List String :=
  ((qrs.map (fun qr => qr.map Prod.fst)).flatten).dedup

/-- The AggregatedEntry built for one key (lines 229-257). -/
def mkAggregated (qrs : List (List (String × AgentEntry))) (penalty : Nat)
    (key : String) : AggregatedEntry :=
  let rc := collectRanks penalty key qrs
  let best_entry := (pickMinRank (candidateEntries qrs key)).getD ⟨"", "", 0⟩
  ⟨best_entry.name, best_entry.url, rc.1.sum, listMin rc.1, listMax rc.1, rc.2⟩

/-- The sort key of line 259 as a Bool relation. -/
def aggLE (a b : AggregatedEntry) : Bool :=
  decide (a.total_score ≤ b.total_score)

/-- aggregate_entries: one AggregatedEntry per key of the union, sorted
ascending by total_score (Python sorted is a stable merge sort). -/
def aggregate_entries (qrs : List (List (String × AgentEntry)))
    (penalty : Nat) : List AggregatedEntry :=
  ((allKeys qrs).map (mkAggregated qrs penalty)).mergeSort aggLE

/-- The per-query stage of main (line 298): one map per provider outcome,
failures already degraded to empty URL lists by get_search_results. -/
def run_queries (fetch : String → Option HtmlDoc)
    (outcomes : List (Except String (List String))) :
    List (List (String × AgentEntry)) :=
  outcomes.map (fun r => fetch_agents_for_query fetch (get_search_results r))

/-! ### Specification-side notions used to state the claims -/

/-- The mathematical substring relation: the needle occurs contiguously
inside the haystack. -/
def SubstrOf (needle hay : String) : Prop :=
  ∃ p q : List Char, hay.data = p ++ needle.data ++ q

/-- One classified occurrence inside a query's raw result sequence: the
1-based rank at which a page with this usable title and URL was accepted
by the loop body of fetch_agents_for_query. -/
structure RankedHit where
  rank : Nat
  title : String
  url : String
deriving DecidableEq, Repr

/-- The classified occurrences of a raw URL sequence in order, ranks
counted from start over every raw result (skips included). -/
def hits (fetch : String → Option HtmlDoc) : List String → Nat → List RankedHit
  | [], _ => []
  | url :: rest, rank =>
    match classify fetch url with
    | none => hits fetch rest (rank + 1)
    | some title => ⟨rank, title, url⟩ :: hits fetch rest (rank + 1)

/-- The occurrences whose case-folded title is the given key. -/
def hitsFor (key : String) (hs : List RankedHit) : List RankedHit :=
  hs.filter (fun h => strLower h.title = key)

/-- The ranks of a list of occurrences. -/
def hitRanks (hs : List RankedHit) : List Nat := hs.map RankedHit.rank

/-- Stated from the spec (section 3, CandidateEntry invariant): the entry a
query should store for a key is the first-seen occurrence's name and url
with the minimum of all ranks seen, or nothing when the key never occurs. -/
def specEntryFor (key : String) (hs : List RankedHit) : Option AgentEntry :=
  match hitsFor key hs with
  | [] => none
  | h :: rest => some ⟨h.title, h.url, (hitRanks rest).foldl min h.rank⟩

/-- Merging a dict state for one key with the occurrences still to come:
an existing entry keeps its name and url and lowers its rank by every
remaining occurrence; otherwise the first occurrence seeds the entry. -/
def mergeOpt : Option AgentEntry → List RankedHit → Option AgentEntry
  | none, [] => none
  | none, h :: rest => some ⟨h.title, h.url, (hitRanks rest).foldl min h.rank⟩
  | some a, hs => some ⟨a.name, a.url, (hitRanks hs).foldl min a.rank⟩

/-- Modelled from the spec (section 4.2 amended by the code's truthiness
test): the strip of the first candidate attribute that is present with
non-empty raw content. -/
def extract_meta_title_amended (doc : HtmlDoc) : Option String :=
  (List.findSome? truthyStr [doc.ogTitle, doc.metaTitle, doc.titleText]).map strStrip

/-- Concrete per-query maps realising the spec's aggregation example:
ranks [3, absent, 7] across 3 queries. -/
def exampleMaps51 : List (List (String × AgentEntry)) :=
  [[("k", ⟨"K", "u1", 3⟩)], [], [("k", ⟨"K2", "u2", 7⟩)]]

/-- A concrete fetch collaborator used by the witnesses. -/
def exampleFetch : String → Option HtmlDoc := fun u =>
  if u = "https://janedoe.com" then some ⟨some "Jane Doe Realty", none, none⟩
  else none

/-- A concrete raw result sequence whose first URL is banned. -/
def exampleUrls : List String :=
  ["https://www.zillow.com/pittsburgh", "https://janedoe.com"]

/-! ### String containment lemmas -/

theorem charsStartWith_iff (n : List Char) :
    ∀ h : List Char, charsStartWith n h = true ↔ ∃ q, h = n ++ q := by
  induction n with
  | nil =>
    intro h
    simp [charsStartWith]
  | cons a as ih =>
    intro h
    cases h with
    | nil =>
      simp [charsStartWith]
    | cons b bs =>
      simp only [charsStartWith, Bool.and_eq_true, decide_eq_true_eq, ih bs,
        List.cons_append, List.cons.injEq]
      constructor
      · rintro ⟨hab, q, hq⟩
        exact ⟨q, hab.symm, hq⟩
      · rintro ⟨q, hba, hq⟩
        exact ⟨hba.symm, q, hq⟩

theorem charsContain_iff (n : List Char) :
    ∀ h : List Char, charsContain n h = true ↔ ∃ p q, h = p ++ n ++ q := by
  intro h
  induction h with
  | nil =>
    simp only [charsContain, charsStartWith_iff]
    constructor
    · rintro ⟨q, hq⟩
      exact ⟨[], q, by simpa using hq⟩
    · rintro ⟨p, q, hpq⟩
      have h3 : p = [] ∧ n = [] ∧ q = [] := by simpa using hpq.symm
      exact ⟨[], by simp [h3.2.1]⟩
  | cons c rest ih =>
    simp only [charsContain, Bool.or_eq_true, charsStartWith_iff, ih]
    constructor
    · rintro (⟨q, hq⟩ | ⟨p, q, hpq⟩)
      · exact ⟨[], q, by simpa using hq⟩
      · exact ⟨c :: p, q, by simp [hpq]⟩
    · rintro ⟨p, q, hpq⟩
      cases p with
      | nil =>
        exact Or.inl ⟨q, by simpa using hpq⟩
      | cons x xs =>
        simp only [List.cons_append, List.cons.injEq] at hpq
        exact Or.inr ⟨xs, q, hpq.2⟩

theorem strContains_iff (hay needle : String) :
    strContains hay needle = true ↔ SubstrOf needle hay :=
  charsContain_iff needle.data hay.data

/-! ### Claim C7 and C10: the domain filter -/

theorem is_banned_url_iff_aux (url : String) :
    is_banned_url url = true ↔
      SubstrOf GOOGLE_MAPS (strLower url) ∨
        ∃ k ∈ BANNED_KEYWORDS, SubstrOf k (strLower url) := by
  simp only [is_banned_url]
  by_cases hm : strContains (strLower url) GOOGLE_MAPS = true
  · simp [hm, (strContains_iff (strLower url) GOOGLE_MAPS).mp hm]
  · simp only [hm, if_neg, Bool.if_false_left, Bool.and_eq_true, Bool.not_eq_true,
      List.any_eq_true]
    constructor
    · rintro ⟨k, hk, hc⟩
      exact Or.inr ⟨k, hk, (strContains_iff _ _).mp hc⟩
    · rintro (hmaps | ⟨k, hk, hsub⟩)
      · exact absurd ((strContains_iff _ _).mpr hmaps) hm
      · exact ⟨k, hk, (strContains_iff _ _).mpr hsub⟩

/-- Claim C7: is_banned_url returns true exactly when the lower-cased URL
contains the map-service marker or at least one configured banned
substring, and false on a URL containing none of them; it is a pure
containment test with no failure mode. -/
theorem is_banned_url_iff (url : String) :
    is_banned_url url = true ↔
      SubstrOf GOOGLE_MAPS (strLower url) ∨
        ∃ k ∈ BANNED_KEYWORDS, SubstrOf k (strLower url) :=
  is_banned_url_iff_aux url

/-- Claim C10: any URL whose lower-casing contains ".org" anywhere is
classified as banned, because ".org" is itself a configured keyword. -/
theorem org_always_banned (url : String) (h : SubstrOf ".org" (strLower url)) :
    is_banned_url url = true :=
  (is_banned_url_iff_aux url).mpr (Or.inr ⟨".org", by decide, h⟩)

/-- Witness for C10 at the concrete URL https://example.org/agent. -/
theorem org_always_banned_witness :
    SubstrOf ".org" (strLower "https://example.org/agent") ∧
      is_banned_url "https://example.org/agent" = true :=
  have hs : SubstrOf ".org" (strLower "https://example.org/agent") :=
    ⟨"https://example".data, "/agent".data, by decide⟩
  ⟨hs, org_always_banned "https://example.org/agent" hs⟩

/-! ### Claim C5 and C6: title extraction -/

/-- Claim C5 as stated is false: on a document whose og:title content is
whitespace-only, extract_meta_title returns the empty string, which is
neither nothing nor a non-empty string. -/
theorem extract_meta_title_empty_counterexample :
    ¬ (∀ doc : HtmlDoc,
        extract_meta_title doc = none ∨
          ∃ s, extract_meta_title doc = some s ∧ s ≠ "") := by
  intro hall
  rcases hall ⟨some "   ", none, some "Fallback Title"⟩ with hnone | ⟨s, hs, hne⟩
  · exact absurd hnone (by decide)
  · have : s = "" := by
      have : some s = some "" := by rw [← hs]; decide
      simpa using this
    exact hne this

/-- Claim C5 amended: extract_meta_title returns the whitespace-trimmed
content of the first candidate (og:title, meta name=title, title element)
whose raw content is present and non-empty, and nothing when no candidate
has non-empty raw content; the returned string can be empty when the
selected raw content is whitespace-only. -/
theorem extract_meta_title_eq_amended (doc : HtmlDoc) :
    extract_meta_title doc = extract_meta_title_amended doc := by
  unfold extract_meta_title extract_meta_title_amended
  cases h1 : truthyStr doc.ogTitle <;>
    cases h2 : truthyStr doc.metaTitle <;>
      cases h3 : truthyStr doc.titleText <;>
        simp [List.findSome?, h1, h2, h3]

/-- Claim C6: when the document has a non-empty Open-Graph title, it wins
over a non-empty plain title element: the extracted value is the trimmed
og:title content. -/
theorem extract_meta_title_og_priority (doc : HtmlDoc) (og t : String)
    (hog : doc.ogTitle = some og) (hogne : strStrip og ≠ "")
    (ht : doc.titleText = some t) (htne : strStrip t ≠ "") :
    extract_meta_title doc = some (strStrip og) := by
  have hne : og ≠ "" := by
    intro h
    exact hogne (by rw [h]; rfl)
  unfold extract_meta_title
  rw [hog]
  simp [truthyStr, hne]

/-- Witness for C6 at a concrete document holding both titles. -/
theorem extract_meta_title_og_priority_witness :
    strStrip " OG Agent Realty " ≠ "" ∧ strStrip "Plain Title" ≠ "" ∧
      extract_meta_title ⟨some " OG Agent Realty ", none, some "Plain Title"⟩
        = some "OG Agent Realty" := by
  refine ⟨by decide, by decide, ?_⟩
  have h := extract_meta_title_og_priority
    ⟨some " OG Agent Realty ", none, some "Plain Title"⟩
    " OG Agent Realty " "Plain Title" rfl (by decide) rfl (by decide)
  rw [h]
  decide

/-! ### Aggregator lemmas -/

theorem collectRanks_fst (penalty : Nat) (key : String) :
    ∀ qrs : List (List (String × AgentEntry)),
      (collectRanks penalty key qrs).1 = qrs.map (perQueryRank penalty key) := by
  intro qrs
  induction qrs with
  | nil => rfl
  | cons qr rest ih =>
    simp only [collectRanks, perQueryRank, List.map_cons]
    cases h : lookupKey qr key <;> simp [h, ih]

theorem collectRanks_snd (penalty : Nat) (key : String) :
    ∀ qrs : List (List (String × AgentEntry)),
      (collectRanks penalty key qrs).2
        = qrs.countP (fun qr => (lookupKey qr key).isSome) := by
  intro qrs
  induction qrs with
  | nil => rfl
  | cons qr rest ih =>
    simp only [collectRanks, List.countP_cons]
    cases h : lookupKey qr key <;> simp [h, ih]

theorem foldl_min_le_init (l : List Nat) : ∀ a : Nat, l.foldl min a ≤ a := by
  induction l with
  | nil => intro a; exact Nat.le_refl a
  | cons b l ih =>
    intro a
    exact Nat.le_trans (Nat.le_trans (ih (min a b)) (Nat.min_le_left a b)) (Nat.le_refl a)

theorem foldl_min_le_mem (l : List Nat) :
    ∀ a x : Nat, x ∈ l → l.foldl min a ≤ x := by
  induction l with
  | nil => intro a x hx; cases hx
  | cons b l ih =>
    intro a x hx
    rcases List.mem_cons.mp hx with hxb | hxl
    · subst hxb
      exact Nat.le_trans (foldl_min_le_init l (min a x)) (Nat.min_le_right a x)
    · exact ih (min a b) x hxl

theorem foldl_min_mem (l : List Nat) : ∀ a : Nat, l.foldl min a ∈ a :: l := by
  induction l with
  | nil => intro a; simp
  | cons b l ih =>
    intro a
    simp only [List.foldl_cons, List.mem_cons]
    have h := ih (min a b)
    rcases List.mem_cons.mp h with h0 | h1
    · rcases min_choice a b with hab | hab
      · left; rw [h0, hab]
      · right; left; rw [h0, hab]
    · right; right; exact h1

theorem foldl_min_const (l : List Nat) :
    ∀ a : Nat, (∀ x ∈ l, a ≤ x) → l.foldl min a = a := by
  induction l with
  | nil => intro a _; rfl
  | cons b l ih =>
    intro a hall
    have hab : min a b = a := Nat.min_eq_left (hall b (List.mem_cons_self b l))
    simp only [List.foldl_cons, hab]
    exact ih a (fun x hx => hall x (List.mem_cons_of_mem b hx))

theorem foldl_max_init_le (l : List Nat) : ∀ a : Nat, a ≤ l.foldl max a := by
  induction l with
  | nil => intro a; exact Nat.le_refl a
  | cons b l ih =>
    intro a
    exact Nat.le_trans (Nat.le_max_left a b) (ih (max a b))

theorem foldl_max_mem_le (l : List Nat) :
    ∀ a x : Nat, x ∈ l → x ≤ l.foldl max a := by
  induction l with
  | nil => intro a x hx; cases hx
  | cons b l ih =>
    intro a x hx
    rcases List.mem_cons.mp hx with hxb | hxl
    · subst hxb
      exact Nat.le_trans (Nat.le_max_right a x) (foldl_max_init_le l (max a x))
    · exact ih (max a b) x hxl

theorem foldl_max_mem (l : List Nat) : ∀ a : Nat, l.foldl max a ∈ a :: l := by
  induction l with
  | nil => intro a; simp
  | cons b l ih =>
    intro a
    simp only [List.foldl_cons, List.mem_cons]
    have h := ih (max a b)
    rcases List.mem_cons.mp h with h0 | h1
    · rcases max_choice a b with hab | hab
      · left; rw [h0, hab]
      · right; left; rw [h0, hab]
    · right; right; exact h1

theorem listMin_mem (l : List Nat) (h : l ≠ []) : listMin l ∈ l := by
  cases l with
  | nil => exact absurd rfl h
  | cons a l => exact foldl_min_mem l a

theorem listMin_le (l : List Nat) (x : Nat) (hx : x ∈ l) : listMin l ≤ x := by
  cases l with
  | nil => cases hx
  | cons a l =>
    rcases List.mem_cons.mp hx with h0 | h1
    · rw [h0]
      show l.foldl min a ≤ a
      exact foldl_min_le_init l a
    · exact foldl_min_le_mem l a x h1

theorem listMax_mem (l : List Nat) (h : l ≠ []) : listMax l ∈ l := by
  cases l with
  | nil => exact absurd rfl h
  | cons a l => exact foldl_max_mem l a

theorem le_listMax (l : List Nat) (x : Nat) (hx : x ∈ l) : x ≤ listMax l := by
  cases l with
  | nil => cases hx
  | cons a l =>
    rcases List.mem_cons.mp hx with h0 | h1
    · rw [h0]
      show a ≤ l.foldl max a
      exact foldl_max_init_le l a
    · exact foldl_max_mem_le l a x h1

theorem lookupKey_isSome_iff (k : String) :
    ∀ m : List (String × AgentEntry),
      (lookupKey m k).isSome = true ↔ k ∈ m.map Prod.fst := by
  intro m
  induction m with
  | nil => simp [lookupKey]
  | cons p rest ih =>
    by_cases hp : p.1 = k
    · simp [lookupKey, hp]
    · simp [lookupKey, hp, ih, Ne.symm hp]

theorem allKeys_exists_query (qrs : List (List (String × AgentEntry)))
    (key : String) (hk : key ∈ allKeys qrs) :
    ∃ qr ∈ qrs, (lookupKey qr key).isSome = true := by
  have h1 : key ∈ (qrs.map (fun qr => qr.map Prod.fst)).flatten :=
    List.mem_dedup.mp hk
  rcases List.mem_flatten.mp h1 with ⟨ks, hks, hkey⟩
  rcases List.mem_map.mp hks with ⟨qr, hqr, rfl⟩
  exact ⟨qr, hqr, (lookupKey_isSome_iff key qr).mpr hkey⟩

theorem allKeys_ne_nil (qrs : List (List (String × AgentEntry)))
    (key : String) (hk : key ∈ allKeys qrs) : qrs ≠ [] := by
  rcases allKeys_exists_query qrs key hk with ⟨qr, hqr, _⟩
  intro hnil
  rw [hnil] at hqr
  cases hqr

/-! ### Claim C1, C2, C9: the aggregator -/

/-- Claim C1: for each normalized name in the union of the per-query maps'
keys, aggregate_entries produces an AggregatedEntry whose total_score is
the sum over all queries of that query's stored rank if present and the
penalty otherwise, whose best_rank and worst_rank are the minimum and
maximum of those same per-query values, and whose appearance_count is the
number of queries containing the name. -/
theorem aggregate_entries_per_key (qrs : List (List (String × AgentEntry)))
    (penalty : Nat) (key : String) (hk : key ∈ allKeys qrs) :
    ∃ e ∈ aggregate_entries qrs penalty,
      e.total_score = (qrs.map (perQueryRank penalty key)).sum ∧
      e.best_rank ∈ qrs.map (perQueryRank penalty key) ∧
      (∀ r ∈ qrs.map (perQueryRank penalty key), e.best_rank ≤ r) ∧
      e.worst_rank ∈ qrs.map (perQueryRank penalty key) ∧
      (∀ r ∈ qrs.map (perQueryRank penalty key), r ≤ e.worst_rank) ∧
      e.appearance_count = qrs.countP (fun qr => (lookupKey qr key).isSome) := by
  have hmem : mkAggregated qrs penalty key ∈ aggregate_entries qrs penalty := by
    unfold aggregate_entries
    exact List.mem_mergeSort.mpr (List.mem_map_of_mem _ hk)
  have hrne : qrs.map (perQueryRank penalty key) ≠ [] := by
    intro h
    exact allKeys_ne_nil qrs key hk (List.map_eq_nil.mp h)
  have hfst := collectRanks_fst penalty key qrs
  have hsnd := collectRanks_snd penalty key qrs
  refine ⟨mkAggregated qrs penalty key, hmem, ?_, ?_, ?_, ?_, ?_, ?_⟩
  · show (collectRanks penalty key qrs).1.sum = _
    rw [hfst]
  · show listMin (collectRanks penalty key qrs).1 ∈ _
    rw [hfst]
    exact listMin_mem _ hrne
  · intro r hr
    show listMin (collectRanks penalty key qrs).1 ≤ r
    rw [hfst]
    exact listMin_le _ r hr
  · show listMax (collectRanks penalty key qrs).1 ∈ _
    rw [hfst]
    exact listMax_mem _ hrne
  · intro r hr
    show r ≤ listMax (collectRanks penalty key qrs).1
    rw [hfst]
    exact le_listMax _ r hr
  · show (collectRanks penalty key qrs).2 = _
    rw [hsnd]

/-- Witness for C1 at the spec's example: penalty 51 and ranks
[3, absent, 7] across 3 queries give total 61, best 3, worst 51,
2 appearances. -/
theorem aggregate_entries_per_key_witness :
    ("k" ∈ allKeys exampleMaps51) ∧
    (exampleMaps51.map (perQueryRank 51 "k")).sum = 61 ∧
    listMin (exampleMaps51.map (perQueryRank 51 "k")) = 3 ∧
    listMax (exampleMaps51.map (perQueryRank 51 "k")) = 51 ∧
    exampleMaps51.countP (fun qr => (lookupKey qr "k").isSome) = 2 ∧
    (∃ e ∈ aggregate_entries exampleMaps51 51,
      e.total_score = (exampleMaps51.map (perQueryRank 51 "k")).sum ∧
      e.best_rank ∈ exampleMaps51.map (perQueryRank 51 "k") ∧
      (∀ r ∈ exampleMaps51.map (perQueryRank 51 "k"), e.best_rank ≤ r) ∧
      e.worst_rank ∈ exampleMaps51.map (perQueryRank 51 "k") ∧
      (∀ r ∈ exampleMaps51.map (perQueryRank 51 "k"), r ≤ e.worst_rank) ∧
      e.appearance_count
        = exampleMaps51.countP (fun qr => (lookupKey qr "k").isSome)) :=
  ⟨by decide, by decide, by decide, by decide, by decide,
    aggregate_entries_per_key exampleMaps51 51 "k" (by decide)⟩

/-- Claim C2: the output of aggregate_entries is sorted ascending by
total_score; every earlier entry's total_score is at most every later
one's, in particular for adjacent pairs. -/
theorem aggregate_entries_sorted (qrs : List (List (String × AgentEntry)))
    (penalty : Nat) :
    List.Pairwise (fun a b : AggregatedEntry => a.total_score ≤ b.total_score)
      (aggregate_entries qrs penalty) ∧
    List.Chain' (fun a b : AggregatedEntry => a.total_score ≤ b.total_score)
      (aggregate_entries qrs penalty) := by
  have htrans : ∀ a b c : AggregatedEntry,
      aggLE a b = true → aggLE b c = true → aggLE a c = true := by
    intro a b c hab hbc
    simp only [aggLE, decide_eq_true_eq] at hab hbc ⊢
    omega
  have htotal : ∀ a b : AggregatedEntry, (aggLE a b || aggLE b a) = true := by
    intro a b
    simp only [aggLE, Bool.or_eq_true, decide_eq_true_eq]
    omega
  have h := List.sorted_mergeSort htrans htotal
    ((allKeys qrs).map (mkAggregated qrs penalty))
  have hp : List.Pairwise
      (fun a b : AggregatedEntry => a.total_score ≤ b.total_score)
      (aggregate_entries qrs penalty) := by
    unfold aggregate_entries
    exact h.imp (fun hab => by simpa [aggLE] using hab)
  exact ⟨hp, hp.chain'⟩

/-- Claim C9: every entry produced by aggregate_entries satisfies
best_rank ≤ worst_rank, best_rank ≤ total_score, and
1 ≤ appearance_count ≤ number of input query maps. -/
theorem aggregated_invariants (qrs : List (List (String × AgentEntry)))
    (penalty : Nat) (e : AggregatedEntry)
    (he : e ∈ aggregate_entries qrs penalty) :
    e.best_rank ≤ e.worst_rank ∧ e.best_rank ≤ e.total_score ∧
      1 ≤ e.appearance_count ∧ e.appearance_count ≤ qrs.length := by
  rcases List.mem_map.mp (List.mem_mergeSort.mp he) with ⟨key, hk, rfl⟩
  have hrne : qrs.map (perQueryRank penalty key) ≠ [] := by
    intro h
    exact allKeys_ne_nil qrs key hk (List.map_eq_nil.mp h)
  have hfst := collectRanks_fst penalty key qrs
  have hsnd := collectRanks_snd penalty key qrs
  refine ⟨?_, ?_, ?_, ?_⟩
  · show listMin (collectRanks penalty key qrs).1
      ≤ listMax (collectRanks penalty key qrs).1
    rw [hfst]
    exact listMin_le _ _ (listMax_mem _ hrne)
  · show listMin (collectRanks penalty key qrs).1
      ≤ (collectRanks penalty key qrs).1.sum
    rw [hfst]
    exact List.single_le_sum (fun x _ => Nat.zero_le x) _ (listMin_mem _ hrne)
  · show 1 ≤ (collectRanks penalty key qrs).2
    rw [hsnd]
    exact List.countP_pos_iff.mpr (allKeys_exists_query qrs key hk)
  · show (collectRanks penalty key qrs).2 ≤ qrs.length
    rw [hsnd]
    exact List.countP_le_length _

/-- Witness for C9 at the spec's example maps. -/
theorem aggregated_invariants_witness :
    ((⟨"K", "u1", 61, 3, 51, 2⟩ : AggregatedEntry)
        ∈ aggregate_entries exampleMaps51 51) ∧
      (3 ≤ 51 ∧ 3 ≤ 61 ∧ 1 ≤ 2 ∧ 2 ≤ exampleMaps51.length) := by
  have hm : (⟨"K", "u1", 61, 3, 51, 2⟩ : AggregatedEntry)
      ∈ aggregate_entries exampleMaps51 51 := by
    unfold aggregate_entries
    exact List.mem_mergeSort.mpr (by decide)
  exact ⟨hm, aggregated_invariants exampleMaps51 51 _ hm⟩

/-! ### Claim C8: search-provider failure handling -/

/-- Claim C8: a failed search outcome is treated exactly like one that
returned no URLs: the per-query map is empty, replacing the failure by an
empty success leaves the whole pipeline's output unchanged, and a run in
which every query fails still returns the (empty) ranked list. -/
theorem search_failure_degrades (fetch : String → Option HtmlDoc)
    (err : String) (pre post : List (Except String (List String)))
    (penalty n : Nat) :
    fetch_agents_for_query fetch (get_search_results (Except.error err)) = [] ∧
    aggregate_entries (run_queries fetch (pre ++ Except.error err :: post)) penalty
      = aggregate_entries (run_queries fetch (pre ++ Except.ok [] :: post)) penalty ∧
    aggregate_entries (run_queries fetch (List.replicate n (Except.error err)))
      penalty = [] := by
  refine ⟨rfl, ?_, ?_⟩
  · simp [run_queries, get_search_results]
  · have hrep : run_queries fetch (List.replicate n (Except.error err))
        = List.replicate n [] := by
      simp [run_queries, List.map_replicate, get_search_results,
        fetch_agents_for_query, fetchLoop]
    rw [hrep]
    have hfl : ∀ m : Nat,
        ((List.replicate m ([] : List (String × AgentEntry))).map
          (fun qr => qr.map Prod.fst)).flatten = [] := by
      intro m
      induction m with
      | zero => rfl
      | succ j ih => simpa [List.replicate_succ] using ih
    unfold aggregate_entries allKeys
    rw [hfl n]
    simp [List.mergeSort_nil]

/-! ### Query-fetcher lemmas -/

theorem lookupKey_append_single (x : String × AgentEntry) (k : String) :
    ∀ m : List (String × AgentEntry),
      lookupKey (m ++ [x]) k
        = match lookupKey m k with
          | some a => some a
          | none => if x.1 = k then some x.2 else none := by
  intro m
  induction m with
  | nil => simp [lookupKey]
  | cons p rest ih =>
    by_cases hp : p.1 = k
    · simp [lookupKey, hp]
    · simp [lookupKey, hp, ih]

theorem lookupKey_map_upd_self (r : Nat) (key : String) :
    ∀ m : List (String × AgentEntry),
      lookupKey (m.map (fun p =>
          if p.1 = key
          then (p.1, (⟨p.2.name, p.2.url, min p.2.rank r⟩ : AgentEntry))
          else p)) key
        = (lookupKey m key).map
            (fun a => (⟨a.name, a.url, min a.rank r⟩ : AgentEntry)) := by
  intro m
  induction m with
  | nil => simp [lookupKey]
  | cons p rest ih =>
    by_cases hp : p.1 = key
    · simp [lookupKey, hp]
    · simp [lookupKey, hp, ih]

theorem lookupKey_map_upd_other (r : Nat) (key k : String) (hne : key ≠ k) :
    ∀ m : List (String × AgentEntry),
      lookupKey (m.map (fun p =>
          if p.1 = key
          then (p.1, (⟨p.2.name, p.2.url, min p.2.rank r⟩ : AgentEntry))
          else p)) k
        = lookupKey m k := by
  intro m
  induction m with
  | nil => simp [lookupKey]
  | cons p rest ih =>
    have hkn : k ≠ key := fun hh => hne hh.symm
    by_cases hp : p.1 = key
    · have hpk : p.1 ≠ k := by rw [hp]; exact hne
      simp [lookupKey, hp, hpk, hne, ih]
    · by_cases hpk : p.1 = k
      · simp [lookupKey, hp, hpk, hkn]
      · simp [lookupKey, hp, hpk, ih]

theorem lookupKey_upsertEntry_self (m : List (String × AgentEntry))
    (t u : String) (r : Nat) :
    lookupKey (upsertEntry m t u r) (strLower t)
      = match lookupKey m (strLower t) with
        | some a => some ⟨a.name, a.url, min a.rank r⟩
        | none => some ⟨t, u, r⟩ := by
  unfold upsertEntry
  cases hl : lookupKey m (strLower t) with
  | some a =>
    simp only [hl]
    rw [lookupKey_map_upd_self r (strLower t) m, hl]
    rfl
  | none =>
    simp only [hl]
    rw [lookupKey_append_single, hl]
    simp

theorem lookupKey_upsertEntry_other (m : List (String × AgentEntry))
    (t u : String) (r : Nat) (k : String) (hk : strLower t ≠ k) :
    lookupKey (upsertEntry m t u r) k = lookupKey m k := by
  unfold upsertEntry
  cases hl : lookupKey m (strLower t) with
  | some a =>
    simp only [hl]
    rw [lookupKey_map_upd_other r (strLower t) k hk m]
  | none =>
    simp only [hl]
    rw [lookupKey_append_single]
    cases hlk : lookupKey m k with
    | some b => rfl
    | none => simp [hk]

theorem lookupKey_eq_none_iff (k : String) :
    ∀ m : List (String × AgentEntry),
      lookupKey m k = none ↔ k ∉ m.map Prod.fst := by
  intro m
  induction m with
  | nil => simp [lookupKey]
  | cons p rest ih =>
    by_cases hp : p.1 = k
    · simp [lookupKey, hp]
    · have : k ≠ p.1 := fun h => hp h.symm
      simp [lookupKey, hp, ih, this]

theorem upsertEntry_nodupKeys (m : List (String × AgentEntry))
    (t u : String) (r : Nat) (h : (m.map Prod.fst).Nodup) :
    ((upsertEntry m t u r).map Prod.fst).Nodup := by
  unfold upsertEntry
  cases hl : lookupKey m (strLower t) with
  | some a =>
    simp only [hl]
    have hkeys : (m.map (fun p =>
        if p.1 = strLower t
        then (p.1, (⟨p.2.name, p.2.url, min p.2.rank r⟩ : AgentEntry))
        else p)).map Prod.fst = m.map Prod.fst := by
      rw [List.map_map]
      apply List.map_congr_left
      intro p _
      by_cases hp : p.1 = strLower t <;> simp [hp]
    rw [hkeys]
    exact h
  | none =>
    simp only [hl, List.map_append]
    rw [List.nodup_append]
    refine ⟨h, List.nodup_singleton _, ?_⟩
    intro x hx hx2
    have hxt : x = strLower t := by simpa using hx2
    rw [hxt] at hx
    exact (lookupKey_eq_none_iff (strLower t) m).mp hl hx

theorem foldl_upsert_nodupKeys :
    ∀ (hs : List RankedHit) (m : List (String × AgentEntry)),
      (m.map Prod.fst).Nodup →
      (((hs.foldl (fun acc h => upsertEntry acc h.title h.url h.rank) m)).map
        Prod.fst).Nodup := by
  intro hs
  induction hs with
  | nil => intro m h; exact h
  | cons h rest ih =>
    intro m hm
    exact ih _ (upsertEntry_nodupKeys m h.title h.url h.rank hm)

theorem hitsFor_cons_pos (key : String) (h : RankedHit) (rest : List RankedHit)
    (hk : strLower h.title = key) :
    hitsFor key (h :: rest) = h :: hitsFor key rest := by
  simp [hitsFor, hk]

theorem hitsFor_cons_neg (key : String) (h : RankedHit) (rest : List RankedHit)
    (hk : strLower h.title ≠ key) :
    hitsFor key (h :: rest) = hitsFor key rest := by
  simp [hitsFor, hk]

theorem lookup_foldl_upsert (key : String) :
    ∀ (hs : List RankedHit) (m : List (String × AgentEntry)),
      lookupKey (hs.foldl (fun acc h => upsertEntry acc h.title h.url h.rank) m) key
        = mergeOpt (lookupKey m key) (hitsFor key hs) := by
  intro hs
  induction hs with
  | nil =>
    intro m
    cases hl : lookupKey m key with
    | none =>
      simp only [List.foldl_nil, hitsFor, List.filter_nil]
      rw [hl]
      rfl
    | some a =>
      simp only [List.foldl_nil, hitsFor, List.filter_nil]
      rw [hl]
      rfl
  | cons h rest ih =>
    intro m
    rw [List.foldl_cons, ih (upsertEntry m h.title h.url h.rank)]
    by_cases hk : strLower h.title = key
    · rw [hitsFor_cons_pos key h rest hk]
      cases hl : lookupKey m key with
      | none =>
        have hup : lookupKey (upsertEntry m h.title h.url h.rank) key
            = some ⟨h.title, h.url, h.rank⟩ := by
          rw [← hk] at hl ⊢
          rw [lookupKey_upsertEntry_self m h.title h.url h.rank, hl]
        rw [hup]
        simp [mergeOpt]
      | some a =>
        have hup : lookupKey (upsertEntry m h.title h.url h.rank) key
            = some ⟨a.name, a.url, min a.rank h.rank⟩ := by
          rw [← hk] at hl ⊢
          rw [lookupKey_upsertEntry_self m h.title h.url h.rank, hl]
        rw [hup]
        simp [mergeOpt, hitRanks]
    · rw [hitsFor_cons_neg key h rest hk,
        lookupKey_upsertEntry_other m h.title h.url h.rank key hk]

theorem fetchLoop_eq_foldl (fetch : String → Option HtmlDoc) :
    ∀ (urls : List String) (rank : Nat) (m : List (String × AgentEntry)),
      fetchLoop fetch urls rank m
        = (hits fetch urls rank).foldl
            (fun acc h => upsertEntry acc h.title h.url h.rank) m := by
  intro urls
  induction urls with
  | nil => intro rank m; rfl
  | cons url rest ih =>
    intro rank m
    cases hc : classify fetch url with
    | none => simp only [fetchLoop, hits, hc]; exact ih (rank + 1) m
    | some title =>
      simp only [fetchLoop, hits, hc, List.foldl_cons]
      exact ih (rank + 1) _

theorem specEntryFor_eq_mergeOpt (key : String) (hs : List RankedHit) :
    specEntryFor key hs = mergeOpt none (hitsFor key hs) := by
  cases h : hitsFor key hs <;> simp [specEntryFor, mergeOpt, h]

theorem lookup_fetch_eq_spec (fetch : String → Option HtmlDoc)
    (urls : List String) (key : String) :
    lookupKey (fetch_agents_for_query fetch urls) key
      = specEntryFor key (hits fetch urls 1) := by
  unfold fetch_agents_for_query
  rw [fetchLoop_eq_foldl, lookup_foldl_upsert, specEntryFor_eq_mergeOpt]
  rfl

theorem hits_mem_position (fetch : String → Option HtmlDoc) :
    ∀ (urls : List String) (start : Nat) (h : RankedHit),
      h ∈ hits fetch urls start →
      ∃ i : Fin urls.length, urls.get i = h.url ∧ h.rank = start + i.1 := by
  intro urls
  induction urls with
  | nil =>
    intro start h hh
    simp [hits] at hh
  | cons url rest ih =>
    intro start h hh
    cases hc : classify fetch url with
    | none =>
      simp only [hits, hc] at hh
      rcases ih (start + 1) h hh with ⟨i, hget, hrank⟩
      refine ⟨⟨i.1 + 1, Nat.succ_lt_succ i.2⟩, ?_, ?_⟩
      · simpa using hget
      · show h.rank = start + (i.1 + 1)
        omega
    | some title =>
      simp only [hits, hc] at hh
      rcases List.mem_cons.mp hh with h0 | h1
      · subst h0
        exact ⟨⟨0, Nat.succ_pos _⟩, rfl, by simp⟩
      · rcases ih (start + 1) h h1 with ⟨i, hget, hrank⟩
        refine ⟨⟨i.1 + 1, Nat.succ_lt_succ i.2⟩, ?_, ?_⟩
        · simpa using hget
        · show h.rank = start + (i.1 + 1)
          omega

theorem hits_rank_lb (fetch : String → Option HtmlDoc)
    (urls : List String) (start : Nat) (h : RankedHit)
    (hh : h ∈ hits fetch urls start) : start ≤ h.rank := by
  rcases hits_mem_position fetch urls start h hh with ⟨i, _, hrank⟩
  omega

theorem hits_rank_pairwise (fetch : String → Option HtmlDoc) :
    ∀ (urls : List String) (start : Nat),
      List.Pairwise (fun a b : RankedHit => a.rank < b.rank)
        (hits fetch urls start) := by
  intro urls
  induction urls with
  | nil => intro start; simp [hits]
  | cons url rest ih =>
    intro start
    cases hc : classify fetch url with
    | none =>
      simp only [hits, hc]
      exact ih (start + 1)
    | some title =>
      simp only [hits, hc]
      refine List.pairwise_cons.mpr ⟨?_, ih (start + 1)⟩
      intro b hb
      have := hits_rank_lb fetch rest (start + 1) b hb
      show start < b.rank
      omega

/-! ### Claim C3 and C4: the per-query map -/

/-- Claim C3: within one query the map holds at most one entry per
case-folded title, and the entry stored for a key is fully characterised:
its name and url are those of the first-seen occurrence of the key in the
result sequence and its rank is the minimum of all ranks at which the key
was seen (specEntryFor). -/
theorem fetch_agents_dedup_minrank (fetch : String → Option HtmlDoc)
    (urls : List String) (key : String) :
    ((fetch_agents_for_query fetch urls).map Prod.fst).Nodup ∧
    lookupKey (fetch_agents_for_query fetch urls) key
      = specEntryFor key (hits fetch urls 1) := by
  constructor
  · unfold fetch_agents_for_query
    rw [fetchLoop_eq_foldl]
    exact foldl_upsert_nodupKeys _ [] (by simp)
  · exact lookup_fetch_eq_spec fetch urls key

/-- Claim C4: every stored entry's rank is the 1-based position of its URL
in the raw search-result sequence; skipped URLs never renumber the
surviving ranks. -/
theorem candidate_rank_is_raw_position (fetch : String → Option HtmlDoc)
    (urls : List String) (key : String) (a : AgentEntry)
    (h : lookupKey (fetch_agents_for_query fetch urls) key = some a) :
    ∃ i : Fin urls.length, urls.get i = a.url ∧ a.rank = i.1 + 1 := by
  rw [lookup_fetch_eq_spec] at h
  unfold specEntryFor at h
  cases hf : hitsFor key (hits fetch urls 1) with
  | nil =>
    rw [hf] at h
    cases h
  | cons h0 rest =>
    rw [hf] at h
    have ha : a = ⟨h0.title, h0.url, (hitRanks rest).foldl min h0.rank⟩ :=
      (Option.some.injEq _ _ ▸ h).symm
    have hpw : List.Pairwise (fun x y : RankedHit => x.rank < y.rank)
        (h0 :: rest) := by
      rw [← hf]
      exact (hits_rank_pairwise fetch urls 1).sublist
        (List.filter_sublist (hits fetch urls 1))
    have hmin : (hitRanks rest).foldl min h0.rank = h0.rank := by
      apply foldl_min_const
      intro x hx
      rcases List.mem_map.mp hx with ⟨b, hb, rfl⟩
      exact Nat.le_of_lt ((List.pairwise_cons.mp hpw).1 b hb)
    have hmem : h0 ∈ hits fetch urls 1 := by
      have hh : h0 ∈ hitsFor key (hits fetch urls 1) := by
        rw [hf]
        exact List.mem_cons_self h0 rest
      exact List.mem_of_mem_filter hh
    rcases hits_mem_position fetch urls 1 h0 hmem with ⟨i, hget, hrank⟩
    subst ha
    refine ⟨i, hget, ?_⟩
    show (hitRanks rest).foldl min h0.rank = i.1 + 1
    rw [hmin]
    omega

/-- Witness for C4: with the first raw URL banned and the second accepted,
the stored entry keeps rank 2, the position of its URL in the raw
sequence. -/
theorem candidate_rank_is_raw_position_witness :
    lookupKey (fetch_agents_for_query exampleFetch exampleUrls)
        "jane doe realty"
      = some ⟨"Jane Doe Realty", "https://janedoe.com", 2⟩ ∧
    ∃ i : Fin exampleUrls.length,
      exampleUrls.get i = "https://janedoe.com" ∧ 2 = i.1 + 1 :=
  ⟨by decide,
    candidate_rank_is_raw_position exampleFetch exampleUrls "jane doe realty"
      ⟨"Jane Doe Realty", "https://janedoe.com", 2⟩ (by decide)⟩
